import Mathlib

/-
  Verification of the k-armed bandit notebook
  (rl-cookbook/implementation-notebooks/3.8.1_k_armed_bandits_in_action.ipynb).

  Shallow embedding: floats become rationals, the global NumPy / `random`
  generators become explicit streams of samples passed to each operation,
  Python exceptions (list / array IndexError) become `Option`.
-/

set_option maxHeartbeats 1000000

namespace KArmedBandits

/-- Python sequence indexing `l[i]`: a negative index counts from the end
(`l[i]` is `l[len(l) + i]` for `-len(l) <= i < 0`); any index out of range
raises `IndexError`, modelled as `none`. -/
def pyGet {α : Type} (l : List α) (i : Int) : Option α :=
  let j : Int := if i < 0 then (l.length : Int) + i else i
  if 0 ≤ j then l.get? j.toNat else none

/-- `SlotMachineEnvironment.__init__` stores the two lists as given, with no
validation, and sets `k_arms = len(rewards)`. -/
structure SlotMachineEnvironment where
  reward_probabilities : List ℚ
  rewards : List ℚ
deriving DecidableEq

/-- `self.k_arms = len(rewards)` -/
def SlotMachineEnvironment.k_arms (env : SlotMachineEnvironment) : Nat :=
  env.rewards.length

/-- `SlotMachineEnvironment.pull(arm)`: draw one uniform sample `u`
(made an explicit argument); if `u < self.reward_probabilities[arm]`
return `self.rewards[arm]`, else return `0.0`. Indexing may raise. -/
def SlotMachineEnvironment.pull (env : SlotMachineEnvironment) (arm : Int)
    (u : ℚ) : Option ℚ :=
  match pyGet env.reward_probabilities arm with
  | none => none
  | some p => if u < p then pyGet env.rewards arm else some 0

/-- `pull` with the post-state of the receiver made explicit: the method body
contains no assignment to `self`, so the state returned is the one read. -/
def SlotMachineEnvironment.pullS (env : SlotMachineEnvironment) (arm : Int)
    (u : ℚ) : Option (ℚ × SlotMachineEnvironment) :=
  match pyGet env.reward_probabilities arm with
  | none => none
  | some p =>
    if u < p then
      match pyGet env.rewards arm with
      | none => none
      | some r => some (r, env)
    else some (0, env)

/-- NumPy in-place `a[i] += 1` on an integer-valued counter array
(`np.zeros(k)` counters only ever hold naturals). -/
def listIncr (l : List Nat) (i : Nat) : List Nat :=
  l.set i (l.getD i 0 + 1)

/-- The simulation loop shared by all agents: run `n` numbered steps from a
start state, propagating a Python exception (`none`) raised by any step. -/
def runSteps {σ : Type} (f : Nat → σ → Option σ) : Nat → σ → Option σ
  | 0, s => some s
  | n + 1, s => (runSteps f n s).bind (f n)

/-- The left-to-right maximum scan shared by `np.argmax` and the Thompson
agent's inner loop: starting from a current best `(index, value)` pair,
replace it exactly when the next element is strictly greater (`>`), so the
first maximum seen is kept on ties. `j` is the index of the head of the
remaining list. -/
def argmaxScan : List ℚ → Nat → Nat × ℚ → Nat × ℚ
  | [], _, best => best
  | x :: xs, j, best =>
    if x > best.2 then argmaxScan xs (j + 1) (j, x)
    else argmaxScan xs (j + 1) best

/-- `np.argmax`: index of the first occurrence of the maximum value
(`np.argmax` of an empty array raises; the agents only apply it to
`np.zeros(k_arms)`-shaped arrays, and the 0 returned here for `[]` is never
reached under the theorems' hypotheses). -/
def npArgmax (l : List ℚ) : Nat :=
  match l with
  | [] => 0
  | x :: xs => (argmaxScan xs 1 (0, x)).1

/-- `RandomAgent.__init__` -/
structure RandomAgent where
  environment : SlotMachineEnvironment
  steps : Nat

/-- The local variables of `RandomAgent.step`. -/
structure RAState where
  count_of_arms_pulled : List Nat
  rewards_obtained : List ℚ
  cumulative_rewards : List ℚ

/-- `RandomAgent.step`'s locals before the loop: `np.zeros(k_arms)` and two
empty lists. -/
def RandomAgent.initState (a : RandomAgent) : RAState :=
  ⟨List.replicate a.environment.k_arms 0, [], []⟩

/-- One iteration of `RandomAgent.step`'s loop. The arm drawn by
`np.random.choice(k_arms)` is the explicit sample `c`; the pull's uniform
sample is `u`. The line `cumulative_rewards.append(sum(rewards)/len(rewards))`
reads the notebook-global `rewards` list (the payout list the environment was
built from), passed here as `globalRewards`. -/
def RandomAgent.stepOnce (a : RandomAgent) (globalRewards : List ℚ)
    (c : Nat) (u : ℚ) (s : RAState) : Option RAState :=
  match a.environment.pull (c : Int) u with
  | none => none
  | some reward =>
    some ⟨listIncr s.count_of_arms_pulled c,
          s.rewards_obtained ++ [reward],
          s.cumulative_rewards ++
            [globalRewards.sum / (globalRewards.length : ℚ)]⟩

/-- `RandomAgent.step`'s loop, stopping at the final local state. -/
def RandomAgent.runState (a : RandomAgent) (globalRewards : List ℚ)
    (cs : Nat → Nat) (us : Nat → ℚ) : Option RAState :=
  runSteps (fun i s => a.stepOnce globalRewards (cs i) (us i) s)
    a.steps a.initState

/-- `RandomAgent.step`: returns
`(count_of_arms_pulled, rewards_obtained, cumulative_rewards)`. -/
def RandomAgent.step (a : RandomAgent) (globalRewards : List ℚ)
    (cs : Nat → Nat) (us : Nat → ℚ) :
    Option (List Nat × List ℚ × List ℚ) :=
  (a.runState globalRewards cs us).map
    (fun s => (s.count_of_arms_pulled, s.rewards_obtained,
               s.cumulative_rewards))

/-- `EpsilonGreedyAgent.__init__` -/
structure EpsilonGreedyAgent where
  environment : SlotMachineEnvironment
  steps : Nat
  epsilon : ℚ

/-- The local variables of `EpsilonGreedyAgent.step`. -/
structure EGState where
  q_values : List ℚ
  rewards_obtained_per_arm : List ℚ
  count_of_arms_pulled : List Nat
  rewards : List ℚ
  cumulative_rewards : List ℚ

/-- `EpsilonGreedyAgent.step`'s locals before the loop. -/
def EpsilonGreedyAgent.initState (a : EpsilonGreedyAgent) : EGState :=
  ⟨List.replicate a.environment.k_arms 0,
   List.replicate a.environment.k_arms 0,
   List.replicate a.environment.k_arms 0, [], []⟩

/-- The arm-selection line of `EpsilonGreedyAgent.step`: explore with the
arm `c` drawn by `np.random.choice(k_arms)` when the uniform sample `u` is
strictly below `epsilon`, else exploit via `np.argmax(q_values)`. -/
def EpsilonGreedyAgent.selectArm (a : EpsilonGreedyAgent) (u : ℚ) (c : Nat)
    (q : List ℚ) : Nat :=
  if u < a.epsilon then c else npArgmax q

/-- One iteration of `EpsilonGreedyAgent.step`'s loop, on explore sample `u`,
explore arm `c`, and pull sample `v`. -/
def EpsilonGreedyAgent.stepOnce (a : EpsilonGreedyAgent) (u : ℚ) (c : Nat)
    (v : ℚ) (s : EGState) : Option EGState :=
  let arm := a.selectArm u c s.q_values
  match a.environment.pull (arm : Int) v with
  | none => none
  | some reward =>
    let sums := s.rewards_obtained_per_arm.set arm
      (s.rewards_obtained_per_arm.getD arm 0 + reward)
    let counts := listIncr s.count_of_arms_pulled arm
    let q := s.q_values.set arm (sums.getD arm 0 / (counts.getD arm 0 : ℚ))
    let rs := s.rewards ++ [reward]
    some ⟨q, sums, counts, rs,
          s.cumulative_rewards ++ [rs.sum / (rs.length : ℚ)]⟩

/-- `EpsilonGreedyAgent.step`'s loop, stopping at the final local state. -/
def EpsilonGreedyAgent.runState (a : EpsilonGreedyAgent) (us : Nat → ℚ)
    (cs : Nat → Nat) (vs : Nat → ℚ) : Option EGState :=
  runSteps (fun i s => a.stepOnce (us i) (cs i) (vs i) s) a.steps a.initState

/-- `EpsilonGreedyAgent.step`: returns
`(count_of_arms_pulled, rewards, cumulative_rewards)`. -/
def EpsilonGreedyAgent.step (a : EpsilonGreedyAgent) (us : Nat → ℚ)
    (cs : Nat → Nat) (vs : Nat → ℚ) :
    Option (List Nat × List ℚ × List ℚ) :=
  (a.runState us cs vs).map
    (fun s => (s.count_of_arms_pulled, s.rewards, s.cumulative_rewards))

/-- `ThompsonSamplingAgent.__init__` -/
structure ThompsonSamplingAgent where
  environment : SlotMachineEnvironment
  steps : Nat

/-- The local variables of `ThompsonSamplingAgent.step`. `rewards_obtained`
is the per-arm success counter (the `alpha` component), `failures` the
per-arm failure counter (the `beta` component). -/
structure TSState where
  count_of_arms_pulled : List Nat
  rewards_obtained : List Nat
  failures : List Nat
  cumulative_rewards : List ℚ
  total_rewards : List ℚ

/-- `ThompsonSamplingAgent.step`'s locals before the loop. -/
def ThompsonSamplingAgent.initState (a : ThompsonSamplingAgent) : TSState :=
  ⟨List.replicate a.environment.k_arms 0,
   List.replicate a.environment.k_arms 0,
   List.replicate a.environment.k_arms 0, [], []⟩

/-- The Beta draws of one Thompson step: for each arm `j` one call
`random.betavariate(rewards_obtained[j] + 1, failures[j] + 1)`; the sampler
is the explicit function `bs` of the arm and the two shape parameters. -/
def ThompsonSamplingAgent.betaDraws (a : ThompsonSamplingAgent)
    (bs : Nat → ℚ → ℚ → ℚ) (s : TSState) : List ℚ :=
  (List.range a.environment.k_arms).map
    (fun j => bs j ((s.rewards_obtained.getD j 0 : ℚ) + 1)
                   ((s.failures.getD j 0 : ℚ) + 1))

/-- The inner `for j in range(k_arms)` loop of `ThompsonSamplingAgent.step`:
starting from `arm_to_pull = 0`, `beta_max = 0`, keep the first strict
maximum of the Beta draws. -/
def ThompsonSamplingAgent.selectArm (a : ThompsonSamplingAgent)
    (bs : Nat → ℚ → ℚ → ℚ) (s : TSState) : Nat :=
  (argmaxScan (a.betaDraws bs s) 0 (0, 0)).1

/-- One iteration of `ThompsonSamplingAgent.step`'s loop, on Beta sampler
`bs` and pull sample `v`. The pull count is incremented before the pull; the
raw reward is binarized by the hardcoded `reward > 90` threshold. -/
def ThompsonSamplingAgent.stepOnce (a : ThompsonSamplingAgent)
    (bs : Nat → ℚ → ℚ → ℚ) (v : ℚ) (s : TSState) : Option TSState :=
  let arm := a.selectArm bs s
  let counts := listIncr s.count_of_arms_pulled arm
  match a.environment.pull (arm : Int) v with
  | none => none
  | some reward =>
    let succ := if reward > 90 then listIncr s.rewards_obtained arm
                else s.rewards_obtained
    let fails := if reward > 90 then s.failures else listIncr s.failures arm
    let tr := s.total_rewards ++ [reward]
    some ⟨counts, succ, fails,
          s.cumulative_rewards ++ [tr.sum / (tr.length : ℚ)], tr⟩

/-- `ThompsonSamplingAgent.step`'s loop, stopping at the final local state. -/
def ThompsonSamplingAgent.runState (a : ThompsonSamplingAgent)
    (bs : Nat → Nat → ℚ → ℚ → ℚ) (vs : Nat → ℚ) : Option TSState :=
  runSteps (fun i s => a.stepOnce (bs i) (vs i) s) a.steps a.initState

/-- `ThompsonSamplingAgent.step`: returns
`(count_of_arms_pulled, rewards_obtained, cumulative_rewards)` — note the
second component is the per-arm success counter, not the per-step reward
list `total_rewards`, which is discarded. -/
def ThompsonSamplingAgent.step (a : ThompsonSamplingAgent)
    (bs : Nat → Nat → ℚ → ℚ → ℚ) (vs : Nat → ℚ) :
    Option (List Nat × List Nat × List ℚ) :=
  (a.runState bs vs).map
    (fun s => (s.count_of_arms_pulled, s.rewards_obtained,
               s.cumulative_rewards))

theorem pyGet_nonneg {α : Type} (l : List α) (i : Int) (h : 0 ≤ i) :
    pyGet l i = l.get? i.toNat := by
  unfold pyGet
  have hn : ¬ i < 0 := not_lt.mpr h
  simp [hn, h]

theorem pyGet_of_lt_length {α : Type} (l : List α) (n : Nat)
    (h : n < l.length) : pyGet l (n : Int) = some (l.get ⟨n, h⟩) := by
  rw [pyGet_nonneg l n (Int.ofNat_nonneg n)]
  simp [List.get?_eq_get h]

theorem pyGet_neg {α : Type} (l : List α) (i : Int)
    (h0 : -(l.length : Int) ≤ i) (h1 : i < 0) :
    pyGet l i = pyGet l ((l.length : Int) + i) := by
  unfold pyGet
  have hj : (0 : Int) ≤ (l.length : Int) + i := by omega
  have hnot : ¬ ((l.length : Int) + i < 0) := by omega
  simp only [if_pos h1, if_neg hnot, if_pos hj]

theorem getD_set_same {α : Type} (l : List α) (i : Nat) (v d : α)
    (h : i < l.length) : (l.set i v).getD i d = v := by
  rw [List.getD_eq_getElem _ d (by simpa using h)]
  simp [List.getElem_set]

theorem getD_set_other {α : Type} (l : List α) (i j : Nat) (v d : α)
    (h : j ≠ i) : (l.set i v).getD j d = l.getD j d := by
  by_cases hj : j < l.length
  · rw [List.getD_eq_getElem _ d (by simpa using hj),
        List.getD_eq_getElem _ d hj]
    rw [List.getElem_set_ne (by omega)]
  · rw [List.getD_eq_default _ d (by simpa using Nat.le_of_not_lt hj),
        List.getD_eq_default _ d (Nat.le_of_not_lt hj)]

theorem getD_mem_of_lt {α : Type} (l : List α) (n : Nat) (d : α)
    (h : n < l.length) : l.getD n d ∈ l := by
  rw [List.getD_eq_getElem l d h]
  exact List.getElem_mem h

theorem getD_replicate_zero {α : Type} [Zero α] (k i : Nat) (h : i < k) :
    (List.replicate k (0 : α)).getD i 0 = 0 := by
  rw [List.getD_eq_getElem _ 0 (by simpa using h)]
  rw [List.getElem_replicate]

theorem getD_map_range (k j : Nat) (h : j < k) (f : Nat → ℚ) :
    ((List.range k).map f).getD j 0 = f j := by
  rw [List.getD_eq_getElem _ 0 (by simpa using h)]
  simp

theorem listIncr_length (l : List Nat) (i : Nat) :
    (listIncr l i).length = l.length := by
  simp [listIncr]

theorem listIncr_getD_same (l : List Nat) (i : Nat) (h : i < l.length) :
    (listIncr l i).getD i 0 = l.getD i 0 + 1 :=
  getD_set_same l i _ 0 h

theorem listIncr_getD_other (l : List Nat) (i j : Nat) (h : j ≠ i) :
    (listIncr l i).getD j 0 = l.getD j 0 :=
  getD_set_other l i j _ 0 h

theorem listIncr_sum (l : List Nat) (i : Nat) (h : i < l.length) :
    (listIncr l i).sum = l.sum + 1 := by
  induction l generalizing i with
  | nil => simp at h
  | cons x xs ih =>
    cases i with
    | zero => simp [listIncr]; omega
    | succ i =>
      have hx : listIncr (x :: xs) (i + 1) = x :: listIncr xs i := by
        simp [listIncr]
      rw [hx, List.sum_cons, List.sum_cons, ih i (by simpa using h)]
      omega

theorem runSteps_invariant {σ : Type} (f : Nat → σ → Option σ) (P : σ → Prop)
    (hstep : ∀ i s s', P s → f i s = some s' → P s') :
    ∀ (n : Nat) (s s' : σ), P s → runSteps f n s = some s' → P s' := by
  intro n
  induction n with
  | zero =>
    intro s s' hP h
    cases Option.some.inj h
    exact hP
  | succ n ih =>
    intro s s' hP h
    unfold runSteps at h
    cases hm : runSteps f n s with
    | none => rw [hm] at h; exact Option.noConfusion h
    | some m =>
      rw [hm] at h
      simp only [Option.some_bind] at h
      exact hstep n m s' (ih s m hP hm) h

theorem runSteps_measure {σ : Type} (f : Nat → σ → Option σ) (P : σ → Prop)
    (g : σ → Nat)
    (hstep : ∀ i s s', P s → f i s = some s' → P s' ∧ g s' = g s + 1) :
    ∀ (n : Nat) (s s' : σ), P s → runSteps f n s = some s' →
      P s' ∧ g s' = g s + n := by
  intro n
  induction n with
  | zero =>
    intro s s' hP h
    cases Option.some.inj h
    exact ⟨hP, rfl⟩
  | succ n ih =>
    intro s s' hP h
    unfold runSteps at h
    cases hm : runSteps f n s with
    | none => rw [hm] at h; exact Option.noConfusion h
    | some m =>
      rw [hm] at h
      simp only [Option.some_bind] at h
      obtain ⟨hPm, hgm⟩ := ih s m hP hm
      obtain ⟨hPs, hgs⟩ := hstep n m s' hPm h
      exact ⟨hPs, by omega⟩

theorem runSteps_congr {σ : Type} (f g : Nat → σ → Option σ)
    (h : ∀ i s, f i s = g i s) :
    ∀ (n : Nat) (s : σ), runSteps f n s = runSteps g n s := by
  intro n
  induction n with
  | zero => intro s; rfl
  | succ n ih =>
    intro s
    unfold runSteps
    rw [ih s]
    cases runSteps g n s with
    | none => rfl
    | some m => simp only [Option.some_bind]; exact h n m

/-- Full characterization of the strict left-to-right maximum scan: either
no element beats the incoming best value and the scan returns the incoming
pair, or the scan returns the first index (offset by `j`) at which the
running maximum is attained. -/
theorem argmaxScan_spec (l : List ℚ) :
    ∀ (j bi : Nat) (bv : ℚ),
      (argmaxScan l j (bi, bv) = (bi, bv) ∧ ∀ x ∈ l, x ≤ bv) ∨
      (∃ i, i < l.length ∧
        argmaxScan l j (bi, bv) = (j + i, l.getD i 0) ∧
        bv < l.getD i 0 ∧
        (∀ m, m < l.length → l.getD m 0 ≤ l.getD i 0) ∧
        (∀ m, m < i → l.getD m 0 < l.getD i 0)) := by
  induction l with
  | nil =>
    intro j bi bv
    left
    exact ⟨rfl, by simp⟩
  | cons x xs ih =>
    intro j bi bv
    by_cases hx : x > bv
    · right
      have hred : argmaxScan (x :: xs) j (bi, bv) =
          argmaxScan xs (j + 1) (j, x) := by
        have hcons : argmaxScan (x :: xs) j (bi, bv) =
            if x > bv then argmaxScan xs (j + 1) (j, x)
            else argmaxScan xs (j + 1) (bi, bv) := rfl
        rw [hcons, if_pos hx]
      rcases ih (j + 1) j x with ⟨heq, hall⟩ | ⟨i, hi, heq, hlt, hmax, hfirst⟩
      · refine ⟨0, by simp, ?_, ?_, ?_, ?_⟩
        · rw [hred, heq]; simp
        · simpa using hx
        · intro m hm
          cases m with
          | zero => simp
          | succ m =>
            simp only [List.getD_cons_succ, List.getD_cons_zero]
            exact hall _ (getD_mem_of_lt xs m 0 (by simpa using hm))
        · intro m hm; omega
      · refine ⟨i + 1, by simpa using Nat.succ_lt_succ hi, ?_, ?_, ?_, ?_⟩
        · rw [hred, heq]
          simp only [List.getD_cons_succ]
          congr 1
          omega
        · simp only [List.getD_cons_succ]
          exact lt_trans hx hlt
        · intro m hm
          cases m with
          | zero =>
            simp only [List.getD_cons_succ, List.getD_cons_zero]
            exact le_of_lt hlt
          | succ m =>
            simp only [List.getD_cons_succ]
            exact hmax m (by simpa using hm)
        · intro m hm
          cases m with
          | zero =>
            simp only [List.getD_cons_succ, List.getD_cons_zero]
            exact hlt
          | succ m =>
            simp only [List.getD_cons_succ]
            exact hfirst m (by omega)
    · have hred : argmaxScan (x :: xs) j (bi, bv) =
          argmaxScan xs (j + 1) (bi, bv) := by
        have hcons : argmaxScan (x :: xs) j (bi, bv) =
            if x > bv then argmaxScan xs (j + 1) (j, x)
            else argmaxScan xs (j + 1) (bi, bv) := rfl
        rw [hcons, if_neg hx]
      rcases ih (j + 1) bi bv with ⟨heq, hall⟩ | ⟨i, hi, heq, hlt, hmax, hfirst⟩
      · left
        refine ⟨by rw [hred, heq], ?_⟩
        intro y hy
        rcases List.mem_cons.mp hy with hy | hy
        · rw [hy]; exact le_of_not_lt hx
        · exact hall y hy
      · right
        refine ⟨i + 1, by simpa using Nat.succ_lt_succ hi, ?_, ?_, ?_, ?_⟩
        · rw [hred, heq]
          simp only [List.getD_cons_succ]
          congr 1
          omega
        · simp only [List.getD_cons_succ]
          exact hlt
        · intro m hm
          cases m with
          | zero =>
            simp only [List.getD_cons_succ, List.getD_cons_zero]
            exact le_trans (le_of_not_lt hx) (le_of_lt hlt)
          | succ m =>
            simp only [List.getD_cons_succ]
            exact hmax m (by simpa using hm)
        · intro m hm
          cases m with
          | zero =>
            simp only [List.getD_cons_succ, List.getD_cons_zero]
            exact lt_of_le_of_lt (le_of_not_lt hx) hlt
          | succ m =>
            simp only [List.getD_cons_succ]
            exact hfirst m (by omega)

theorem npArgmax_first_max (l : List ℚ) (hl : l ≠ []) :
    npArgmax l < l.length ∧
    (∀ m, m < l.length → l.getD m 0 ≤ l.getD (npArgmax l) 0) ∧
    (∀ m, m < npArgmax l → l.getD m 0 < l.getD (npArgmax l) 0) := by
  cases l with
  | nil => exact absurd rfl hl
  | cons x xs =>
    have hdef : npArgmax (x :: xs) = (argmaxScan xs 1 (0, x)).1 := rfl
    rcases argmaxScan_spec xs 1 0 x with ⟨heq, hall⟩ |
      ⟨i, hi, heq, hlt, hmax, hfirst⟩
    · rw [hdef, heq]
      refine ⟨by simp, ?_, ?_⟩
      · intro m hm
        cases m with
        | zero => simp
        | succ m =>
          simp only [List.getD_cons_succ, List.getD_cons_zero]
          exact hall _ (getD_mem_of_lt xs m 0 (by simpa using hm))
      · intro m hm
        omega
    · rw [hdef, heq]
      have h1i : 1 + i = i + 1 := Nat.add_comm 1 i
      rw [h1i]
      simp only [List.getD_cons_succ]
      refine ⟨by simpa using Nat.succ_lt_succ hi, ?_, ?_⟩
      · intro m hm
        cases m with
        | zero =>
          simp only [List.getD_cons_zero]
          exact le_of_lt hlt
        | succ m =>
          simp only [List.getD_cons_succ]
          exact hmax m (by simpa using hm)
      · intro m hm
        cases m with
        | zero =>
          simp only [List.getD_cons_zero]
          exact hlt
        | succ m =>
          simp only [List.getD_cons_succ]
          exact hfirst m (by omega)

theorem npArgmax_replicate_zero (k : Nat) :
    npArgmax (List.replicate k (0 : ℚ)) = 0 := by
  cases k with
  | zero => rfl
  | succ k =>
    rw [List.replicate_succ]
    have hdef : npArgmax ((0 : ℚ) :: List.replicate k 0) =
        (argmaxScan (List.replicate k 0) 1 (0, 0)).1 := rfl
    rw [hdef]
    rcases argmaxScan_spec (List.replicate k (0 : ℚ)) 1 0 0 with
      ⟨heq, _⟩ | ⟨i, hi, _, hlt, _, _⟩
    · rw [heq]
    · rw [getD_replicate_zero k i (by simpa using hi)] at hlt
      exact absurd hlt (lt_irrefl 0)

theorem argmaxScan_zero_lt_length (l : List ℚ) (hl : l ≠ []) :
    (argmaxScan l 0 (0, 0)).1 < l.length := by
  rcases argmaxScan_spec l 0 0 0 with ⟨heq, _⟩ | ⟨i, hi, heq, _, _, _⟩
  · rw [heq]
    exact List.length_pos.mpr hl
  · rw [heq]
    simpa using hi

theorem argmaxScan_zero_first_max (l : List ℚ) (hl : l ≠ [])
    (hb : ∀ x ∈ l, 0 ≤ x) :
    (∀ m, m < l.length → l.getD m 0 ≤ l.getD (argmaxScan l 0 (0, 0)).1 0) ∧
    (∀ m, m < (argmaxScan l 0 (0, 0)).1 →
       l.getD m 0 < l.getD (argmaxScan l 0 (0, 0)).1 0) := by
  rcases argmaxScan_spec l 0 0 0 with ⟨heq, hall⟩ |
    ⟨i, hi, heq, hlt, hmax, hfirst⟩
  · rw [heq]
    have hpos : 0 < l.length := List.length_pos.mpr hl
    refine ⟨?_, ?_⟩
    · intro m hm
      have h1 : l.getD m 0 ≤ 0 := hall _ (getD_mem_of_lt l m 0 hm)
      have h2 : 0 ≤ l.getD 0 0 := hb _ (getD_mem_of_lt l 0 0 hpos)
      exact le_trans h1 h2
    · intro m hm
      omega
  · rw [heq]
    simp only [Nat.zero_add]
    exact ⟨hmax, hfirst⟩

/-- Claim C1: for every valid arm index in `[0, k_arms)` (in an environment
whose probability list matches `k_arms`), `pull(arm)` succeeds and returns
`rewards[arm]` exactly when the fresh uniform sample is strictly below
`reward_probabilities[arm]`, and `0` otherwise; in particular it never
returns any value other than `0` or `rewards[arm]`. -/
theorem pull_valid_arm (env : SlotMachineEnvironment) (arm : Nat) (u : ℚ)
    (hp : env.reward_probabilities.length = env.k_arms)
    (ha : arm < env.k_arms) :
    env.pull (arm : Int) u =
      some (if u < env.reward_probabilities.getD arm 0
            then env.rewards.getD arm 0 else 0) ∧
    ∀ r, env.pull (arm : Int) u = some r →
      r = 0 ∨ r = env.rewards.getD arm 0 := by
  have hp' : arm < env.reward_probabilities.length := by
    rw [hp]; exact ha
  have hr' : arm < env.rewards.length := ha
  have h1 : env.pull (arm : Int) u =
      some (if u < env.reward_probabilities.getD arm 0
            then env.rewards.getD arm 0 else 0) := by
    unfold SlotMachineEnvironment.pull
    rw [pyGet_of_lt_length _ _ hp', pyGet_of_lt_length _ _ hr',
        List.getD_eq_get env.reward_probabilities 0 hp',
        List.getD_eq_get env.rewards 0 hr']
    split
    next heq => exact Option.noConfusion heq
    next p heq =>
      cases Option.some.inj heq
      split <;> rfl
  refine ⟨h1, ?_⟩
  intro r hr
  rw [h1] at hr
  have hrr : (if u < env.reward_probabilities.getD arm 0
      then env.rewards.getD arm 0 else 0) = r := Option.some.inj hr
  by_cases hc : u < env.reward_probabilities.getD arm 0
  · rw [if_pos hc] at hrr
    exact Or.inr hrr.symm
  · rw [if_neg hc] at hrr
    exact Or.inl hrr.symm

/-- Claim C1 witness: a concrete one-arm environment, arm 0, sample 0. -/
theorem pull_valid_arm_witness :
    (SlotMachineEnvironment.mk [(1:ℚ)/2] [5]).pull 0 0 = some 5 := by
  have h := (pull_valid_arm (SlotMachineEnvironment.mk [(1:ℚ)/2] [5]) 0 0
    (by decide) (by decide)).1
  simpa using h

/-- Claim C3 counterexample: the constructor performs no validation, so an
environment with mismatched list lengths is constructible; for it
`len(reward_probabilities) ≠ k_arms`. -/
theorem construction_invariant_counterexample :
    ¬ ((SlotMachineEnvironment.mk [(1:ℚ)/2] [1, 2]).reward_probabilities.length =
        (SlotMachineEnvironment.mk [(1:ℚ)/2] [1, 2]).k_arms) := by
  decide

/-- Claim C3 (amended): construction always establishes
`k_arms = len(rewards)`; the full length-equality invariant
`len(reward_probabilities) = len(rewards) = k_arms` holds exactly for those
inputs whose two lists have equal length — no validation enforces it. -/
theorem construction_invariant_amended (probs payoffs : List ℚ)
    (h : probs.length = payoffs.length) :
    (SlotMachineEnvironment.mk probs payoffs).k_arms = payoffs.length ∧
    (SlotMachineEnvironment.mk probs payoffs).reward_probabilities.length =
      (SlotMachineEnvironment.mk probs payoffs).k_arms ∧
    (SlotMachineEnvironment.mk probs payoffs).rewards.length =
      (SlotMachineEnvironment.mk probs payoffs).k_arms :=
  ⟨rfl, h, rfl⟩

/-- Claim C3 witness: the amended invariant at a concrete equal-length input. -/
theorem construction_invariant_amended_witness :
    (SlotMachineEnvironment.mk [(1:ℚ)/2] [3]).k_arms = 1 ∧
    (SlotMachineEnvironment.mk [(1:ℚ)/2] [3]).reward_probabilities.length =
      (SlotMachineEnvironment.mk [(1:ℚ)/2] [3]).k_arms := by
  have h := construction_invariant_amended [(1:ℚ)/2] [3] (by decide)
  exact ⟨h.1, h.2.1⟩

/-- Claim C9: `pull` never modifies the environment: whenever the
state-explicit `pullS` succeeds, the post-state equals the pre-state (all
fields and `k_arms` unchanged) and the returned reward agrees with `pull`. -/
theorem pull_frame (env env' : SlotMachineEnvironment) (arm : Int) (u r : ℚ)
    (h : env.pullS arm u = some (r, env')) :
    env' = env ∧
    env'.reward_probabilities = env.reward_probabilities ∧
    env'.rewards = env.rewards ∧
    env'.k_arms = env.k_arms ∧
    env.pull arm u = some r := by
  unfold SlotMachineEnvironment.pullS at h
  unfold SlotMachineEnvironment.pull
  cases hp : pyGet env.reward_probabilities arm with
  | none => simp [hp] at h
  | some p =>
    simp only [hp] at h ⊢
    by_cases hc : u < p
    · simp only [if_pos hc] at h ⊢
      cases hr : pyGet env.rewards arm with
      | none => simp [hr] at h
      | some v =>
        simp only [hr, Option.some.injEq, Prod.mk.injEq] at h
        obtain ⟨h1, h2⟩ := h
        subst h1; subst h2
        exact ⟨rfl, rfl, rfl, rfl, rfl⟩
    · simp only [if_neg hc] at h ⊢
      simp only [Option.some.injEq, Prod.mk.injEq] at h
      obtain ⟨h1, h2⟩ := h
      subst h1; subst h2
      exact ⟨rfl, rfl, rfl, rfl, rfl⟩

/-- Claim C9 witness: a concrete successful pull leaves the environment
unchanged. -/
theorem pull_frame_witness :
    (SlotMachineEnvironment.mk [(1:ℚ)/2] [5]).pull 0 0 = some 5 ∧
    (SlotMachineEnvironment.mk [(1:ℚ)/2] [5]).pullS 0 0 =
      some (5, SlotMachineEnvironment.mk [(1:ℚ)/2] [5]) := by
  have hs : (SlotMachineEnvironment.mk [(1:ℚ)/2] [5]).pullS 0 0 =
      some (5, SlotMachineEnvironment.mk [(1:ℚ)/2] [5]) := by
    norm_num [SlotMachineEnvironment.pullS, pyGet]
  have h := pull_frame (SlotMachineEnvironment.mk [(1:ℚ)/2] [5])
    (SlotMachineEnvironment.mk [(1:ℚ)/2] [5]) 0 0 5 hs
  exact ⟨h.2.2.2.2, hs⟩

/-- Claim C10: for a negative arm index `a` with `-k_arms ≤ a < 0`, in an
environment whose two lists both have length `k_arms`, `pull(a)` behaves
exactly like `pull(k_arms + a)` (Python negative indexing; no error). -/
theorem pull_negative_index (env : SlotMachineEnvironment) (a : Int) (u : ℚ)
    (k : Nat) (hk : env.k_arms = k)
    (hp : env.reward_probabilities.length = k)
    (h0 : -(k : Int) ≤ a) (h1 : a < 0) :
    env.pull a u = env.pull ((k : Int) + a) u := by
  have hr : env.rewards.length = k := hk
  have hp' : -(env.reward_probabilities.length : Int) ≤ a := by
    rw [hp]; exact h0
  have hr' : -(env.rewards.length : Int) ≤ a := by
    rw [hr]; exact h0
  unfold SlotMachineEnvironment.pull
  rw [pyGet_neg env.reward_probabilities a hp' h1,
      pyGet_neg env.rewards a hr' h1, hp, hr]

/-- Claim C10 witness: `pull(-1)` on a two-arm environment agrees with
`pull(1)` and returns the last arm's payout deterministically when its
probability is 1. -/
theorem pull_negative_index_witness :
    (SlotMachineEnvironment.mk [(1:ℚ)/2, 1] [5, 7]).pull (-1) 0 =
      (SlotMachineEnvironment.mk [(1:ℚ)/2, 1] [5, 7]).pull 1 0 ∧
    (SlotMachineEnvironment.mk [(1:ℚ)/2, 1] [5, 7]).pull (-1) 0 = some 7 := by
  have h := pull_negative_index (SlotMachineEnvironment.mk [(1:ℚ)/2, 1] [5, 7])
    (-1) 0 2 (by decide) (by decide) (by decide) (by decide)
  refine ⟨?_, by norm_num [SlotMachineEnvironment.pull, pyGet]⟩
  simpa using h

theorem RA_step_preserves (a : RandomAgent) (g : List ℚ) (c : Nat) (u : ℚ)
    (st st' : RAState)
    (hc : c < a.environment.k_arms)
    (hcl : st.count_of_arms_pulled.length = a.environment.k_arms)
    (hstep : a.stepOnce g c u st = some st') :
    st'.count_of_arms_pulled.length = a.environment.k_arms ∧
    st'.count_of_arms_pulled.sum = st.count_of_arms_pulled.sum + 1 ∧
    st'.rewards_obtained.length = st.rewards_obtained.length + 1 ∧
    st'.cumulative_rewards.length = st.cumulative_rewards.length + 1 := by
  unfold RandomAgent.stepOnce at hstep
  cases hp : a.environment.pull (c : Int) u with
  | none => rw [hp] at hstep; exact Option.noConfusion hstep
  | some reward =>
    simp only [hp] at hstep
    injection hstep with hst
    subst hst
    refine ⟨?_, ?_, by simp, by simp⟩
    · simp [listIncr_length, hcl]
    · exact listIncr_sum st.count_of_arms_pulled c (by rw [hcl]; exact hc)

theorem EG_selectArm_lt (a : EpsilonGreedyAgent) (u : ℚ) (c : Nat)
    (q : List ℚ)
    (hk : 0 < a.environment.k_arms)
    (hc : c < a.environment.k_arms)
    (hql : q.length = a.environment.k_arms) :
    a.selectArm u c q < a.environment.k_arms := by
  unfold EpsilonGreedyAgent.selectArm
  split
  · exact hc
  · have hne : q ≠ [] := by
      intro hnil
      rw [hnil] at hql
      simp at hql
      omega
    have h := (npArgmax_first_max q hne).1
    omega

theorem EG_step_preserves (a : EpsilonGreedyAgent) (u : ℚ) (c : Nat) (v : ℚ)
    (st st' : EGState)
    (hk : 0 < a.environment.k_arms)
    (hc : c < a.environment.k_arms)
    (hql : st.q_values.length = a.environment.k_arms)
    (hcl : st.count_of_arms_pulled.length = a.environment.k_arms)
    (hstep : a.stepOnce u c v st = some st') :
    st'.q_values.length = a.environment.k_arms ∧
    st'.count_of_arms_pulled.length = a.environment.k_arms ∧
    st'.count_of_arms_pulled.sum = st.count_of_arms_pulled.sum + 1 ∧
    st'.rewards.length = st.rewards.length + 1 ∧
    st'.cumulative_rewards.length = st.cumulative_rewards.length + 1 := by
  have harm := EG_selectArm_lt a u c st.q_values hk hc hql
  unfold EpsilonGreedyAgent.stepOnce at hstep
  dsimp only at hstep
  cases hp : a.environment.pull ((a.selectArm u c st.q_values : Nat) : Int) v with
  | none => rw [hp] at hstep; exact Option.noConfusion hstep
  | some reward =>
    simp only [hp] at hstep
    injection hstep with hst
    subst hst
    refine ⟨by simp [hql], by simp [listIncr_length, hcl], ?_, by simp, by simp⟩
    exact listIncr_sum st.count_of_arms_pulled _ (by rw [hcl]; exact harm)

theorem TS_selectArm_lt (t : ThompsonSamplingAgent) (bsi : Nat → ℚ → ℚ → ℚ)
    (st : TSState) (hk : 0 < t.environment.k_arms) :
    t.selectArm bsi st < t.environment.k_arms := by
  have hlen : (t.betaDraws bsi st).length = t.environment.k_arms := by
    simp [ThompsonSamplingAgent.betaDraws]
  have hne : t.betaDraws bsi st ≠ [] := by
    intro hnil
    rw [hnil] at hlen
    simp at hlen
    omega
  have h := argmaxScan_zero_lt_length (t.betaDraws bsi st) hne
  unfold ThompsonSamplingAgent.selectArm
  omega

theorem TS_step_preserves (t : ThompsonSamplingAgent)
    (bsi : Nat → ℚ → ℚ → ℚ) (v : ℚ) (st st' : TSState)
    (hk : 0 < t.environment.k_arms)
    (hcl : st.count_of_arms_pulled.length = t.environment.k_arms)
    (hsl : st.rewards_obtained.length = t.environment.k_arms)
    (hfl : st.failures.length = t.environment.k_arms)
    (hinv : ∀ j, st.rewards_obtained.getD j 0 + st.failures.getD j 0 =
       st.count_of_arms_pulled.getD j 0)
    (hstep : t.stepOnce bsi v st = some st') :
    st'.count_of_arms_pulled.length = t.environment.k_arms ∧
    st'.rewards_obtained.length = t.environment.k_arms ∧
    st'.failures.length = t.environment.k_arms ∧
    (∀ j, st'.rewards_obtained.getD j 0 + st'.failures.getD j 0 =
       st'.count_of_arms_pulled.getD j 0) ∧
    st'.count_of_arms_pulled.sum = st.count_of_arms_pulled.sum + 1 ∧
    st'.total_rewards.length = st.total_rewards.length + 1 ∧
    st'.cumulative_rewards.length = st.cumulative_rewards.length + 1 := by
  have harm := TS_selectArm_lt t bsi st hk
  unfold ThompsonSamplingAgent.stepOnce at hstep
  dsimp only at hstep
  cases hp : t.environment.pull ((t.selectArm bsi st : Nat) : Int) v with
  | none => rw [hp] at hstep; exact Option.noConfusion hstep
  | some reward =>
    simp only [hp] at hstep
    injection hstep with hst
    subst hst
    refine ⟨by simp [listIncr_length, hcl], ?_, ?_, ?_, ?_, by simp, by simp⟩
    · by_cases h90 : reward > 90 <;> simp [h90, listIncr_length, hsl]
    · by_cases h90 : reward > 90 <;> simp [h90, listIncr_length, hfl]
    · intro j
      by_cases h90 : reward > 90
      · simp only [if_pos h90]
        by_cases hj : j = t.selectArm bsi st
        · subst hj
          rw [listIncr_getD_same _ _ (by rw [hsl]; exact harm),
              listIncr_getD_same _ _ (by rw [hcl]; exact harm)]
          have := hinv (t.selectArm bsi st)
          omega
        · rw [listIncr_getD_other _ _ _ hj, listIncr_getD_other _ _ _ hj]
          exact hinv j
      · simp only [if_neg h90]
        by_cases hj : j = t.selectArm bsi st
        · subst hj
          rw [listIncr_getD_same _ _ (by rw [hfl]; exact harm),
              listIncr_getD_same _ _ (by rw [hcl]; exact harm)]
          have := hinv (t.selectArm bsi st)
          omega
        · rw [listIncr_getD_other _ _ _ hj, listIncr_getD_other _ _ _ hj]
          exact hinv j
    · exact listIncr_sum st.count_of_arms_pulled _ (by rw [hcl]; exact harm)

/-- Claim C2: in every RandomAgent run, every entry of the returned
cumulative-rewards series equals the constant average
`sum(rewards)/len(rewards)` of the external (notebook-global) reward vector
the environment was built from — not the running average of the agent's own
draws; in particular the series is constant across all steps. -/
theorem randomAgent_cumulative_constant (a : RandomAgent)
    (globalRewards : List ℚ) (cs : Nat → Nat) (us : Nat → ℚ) (s : RAState)
    (hg : globalRewards = a.environment.rewards)
    (hrun : a.runState globalRewards cs us = some s) :
    (∀ x ∈ s.cumulative_rewards,
       x = a.environment.rewards.sum / (a.environment.rewards.length : ℚ)) ∧
    s.cumulative_rewards.length = a.steps ∧
    (∀ x ∈ s.cumulative_rewards, ∀ y ∈ s.cumulative_rewards, x = y) := by
  subst hg
  have main := runSteps_measure
    (fun i st => a.stepOnce a.environment.rewards (cs i) (us i) st)
    (fun st => ∀ x ∈ st.cumulative_rewards,
       x = a.environment.rewards.sum / (a.environment.rewards.length : ℚ))
    (fun st => st.cumulative_rewards.length)
    ?_ a.steps a.initState s ?_ hrun
  · refine ⟨main.1, by simpa [RandomAgent.initState] using main.2, ?_⟩
    intro x hx y hy
    rw [main.1 x hx, main.1 y hy]
  · intro i st st' hP hstep
    unfold RandomAgent.stepOnce at hstep
    dsimp only at hstep ⊢
    cases hp : a.environment.pull (cs i : Int) (us i) with
    | none => rw [hp] at hstep; exact Option.noConfusion hstep
    | some reward =>
      simp only [hp] at hstep
      injection hstep with hst
      subst hst
      refine ⟨?_, by simp⟩
      intro x hx
      rcases List.mem_append.mp hx with hx | hx
      · exact hP x hx
      · rw [List.mem_singleton.mp hx]
  · intro x hx
    exact absurd hx (List.not_mem_nil x)

/-- Claim C2 witness: a one-step RandomAgent run on a deterministic one-arm
environment with payout 10; the cumulative series is `[10]`, the constant
external average. -/
theorem randomAgent_cumulative_constant_witness :
    (∀ x ∈ (RAState.mk [1] [10] [10]).cumulative_rewards,
       x = List.sum [(10 : ℚ)] / ((List.length [(10 : ℚ)]) : ℚ)) ∧
    (RAState.mk [1] [10] [10]).cumulative_rewards.length = 1 := by
  have hrun : RandomAgent.runState
      ⟨SlotMachineEnvironment.mk [1] [10], 1⟩ [10]
      (fun _ => 0) (fun _ => 0) = some (RAState.mk [1] [10] [10]) := by
    norm_num [RandomAgent.runState, runSteps, RandomAgent.stepOnce,
      RandomAgent.initState, SlotMachineEnvironment.pull, pyGet, listIncr,
      SlotMachineEnvironment.k_arms]
  have h := randomAgent_cumulative_constant
    ⟨SlotMachineEnvironment.mk [1] [10], 1⟩ [10]
    (fun _ => 0) (fun _ => 0) (RAState.mk [1] [10] [10]) rfl hrun
  exact ⟨h.1, h.2.1⟩

/-- Claim C6: after an EpsilonGreedyAgent run of N steps the per-arm pull
counts sum to exactly N; after a ThompsonSamplingAgent run, each arm's
success count plus failure count equals that arm's pull count, and the pull
counts sum to the configured step count. -/
theorem pull_count_conservation
    (a : EpsilonGreedyAgent) (t : ThompsonSamplingAgent)
    (us : Nat → ℚ) (cs : Nat → Nat) (vs : Nat → ℚ)
    (bs : Nat → Nat → ℚ → ℚ → ℚ) (ws : Nat → ℚ)
    (s : EGState) (r : TSState)
    (hk : 0 < a.environment.k_arms)
    (hc : ∀ i, cs i < a.environment.k_arms)
    (hrunEG : a.runState us cs vs = some s)
    (hkT : 0 < t.environment.k_arms)
    (hrunTS : t.runState bs ws = some r) :
    s.count_of_arms_pulled.sum = a.steps ∧
    (∀ j, r.rewards_obtained.getD j 0 + r.failures.getD j 0 =
       r.count_of_arms_pulled.getD j 0) ∧
    r.count_of_arms_pulled.sum = t.steps := by
  have hEG := runSteps_measure
    (fun i st => a.stepOnce (us i) (cs i) (vs i) st)
    (fun st => st.q_values.length = a.environment.k_arms ∧
       st.count_of_arms_pulled.length = a.environment.k_arms)
    (fun st => st.count_of_arms_pulled.sum)
    ?_ a.steps a.initState s ?_ hrunEG
  · have hTS := runSteps_measure
      (fun i st => t.stepOnce (bs i) (ws i) st)
      (fun st => st.count_of_arms_pulled.length = t.environment.k_arms ∧
         st.rewards_obtained.length = t.environment.k_arms ∧
         st.failures.length = t.environment.k_arms ∧
         (∀ j, st.rewards_obtained.getD j 0 + st.failures.getD j 0 =
            st.count_of_arms_pulled.getD j 0))
      (fun st => st.count_of_arms_pulled.sum)
      ?_ t.steps t.initState r ?_ hrunTS
    · refine ⟨?_, hTS.1.2.2.2, ?_⟩
      · have h := hEG.2
        simp [RandomAgent.initState, EpsilonGreedyAgent.initState] at h
        omega
      · have h := hTS.2
        simp [ThompsonSamplingAgent.initState] at h
        omega
    · intro i st st' hP hstep
      obtain ⟨hcl, hsl, hfl, hinv⟩ := hP
      obtain ⟨h1, h2, h3, h4, h5, _, _⟩ :=
        TS_step_preserves t (bs i) (ws i) st st' hkT hcl hsl hfl hinv hstep
      exact ⟨⟨h1, h2, h3, h4⟩, h5⟩
    · refine ⟨by simp [ThompsonSamplingAgent.initState], by
        simp [ThompsonSamplingAgent.initState], by
        simp [ThompsonSamplingAgent.initState], ?_⟩
      intro j
      simp [ThompsonSamplingAgent.initState]
  · intro i st st' hP hstep
    obtain ⟨hql, hcl⟩ := hP
    obtain ⟨h1, h2, h3, _, _⟩ :=
      EG_step_preserves a (us i) (cs i) (vs i) st st' hk (hc i) hql hcl hstep
    exact ⟨⟨h1, h2⟩, h3⟩
  · exact ⟨by simp [EpsilonGreedyAgent.initState], by
      simp [EpsilonGreedyAgent.initState]⟩

/-- Claim C6 witness: one-step runs of both agents on deterministic one-arm
environments. -/
theorem pull_count_conservation_witness :
    (EGState.mk [10] [10] [1] [10] [10]).count_of_arms_pulled.sum = 1 ∧
    (∀ j, (TSState.mk [1] [1] [0] [100] [100]).rewards_obtained.getD j 0 +
       (TSState.mk [1] [1] [0] [100] [100]).failures.getD j 0 =
       (TSState.mk [1] [1] [0] [100] [100]).count_of_arms_pulled.getD j 0) ∧
    (TSState.mk [1] [1] [0] [100] [100]).count_of_arms_pulled.sum = 1 := by
  have hEG : EpsilonGreedyAgent.runState
      ⟨SlotMachineEnvironment.mk [1] [10], 1, 0⟩
      (fun _ => 0) (fun _ => 0) (fun _ => 0) =
      some (EGState.mk [10] [10] [1] [10] [10]) := by
    norm_num [EpsilonGreedyAgent.runState, runSteps,
      EpsilonGreedyAgent.stepOnce, EpsilonGreedyAgent.initState,
      EpsilonGreedyAgent.selectArm, npArgmax, argmaxScan,
      SlotMachineEnvironment.pull, pyGet, listIncr,
      SlotMachineEnvironment.k_arms]
  have hTS : ThompsonSamplingAgent.runState
      ⟨SlotMachineEnvironment.mk [1] [100], 1⟩
      (fun _ _ _ _ => 1) (fun _ => 0) =
      some (TSState.mk [1] [1] [0] [100] [100]) := by
    norm_num [ThompsonSamplingAgent.runState, runSteps,
      ThompsonSamplingAgent.stepOnce, ThompsonSamplingAgent.initState,
      ThompsonSamplingAgent.selectArm, ThompsonSamplingAgent.betaDraws,
      argmaxScan, SlotMachineEnvironment.pull, pyGet, listIncr,
      SlotMachineEnvironment.k_arms]
  exact pull_count_conservation
    ⟨SlotMachineEnvironment.mk [1] [10], 1, 0⟩
    ⟨SlotMachineEnvironment.mk [1] [100], 1⟩
    (fun _ => 0) (fun _ => 0) (fun _ => 0) (fun _ _ _ _ => 1) (fun _ => 0)
    (EGState.mk [10] [10] [1] [10] [10])
    (TSState.mk [1] [1] [0] [100] [100])
    (by norm_num [SlotMachineEnvironment.k_arms])
    (fun _ => by norm_num [SlotMachineEnvironment.k_arms]) hEG
    (by norm_num [SlotMachineEnvironment.k_arms]) hTS

/-- Claim C5: in every EpsilonGreedyAgent step that takes the exploit branch
(the uniform sample is not below epsilon), the selected arm is the
lowest-index arm attaining the maximum `q_values` entry; with all-zero
`q_values` (before any arm has been pulled) the exploit branch selects arm
0; and after the pull, the pulled arm's q-value equals its accumulated
reward sum divided by its pull count. -/
theorem epsilonGreedy_exploit_step (a : EpsilonGreedyAgent) (u : ℚ) (c : Nat)
    (v : ℚ) (s s' : EGState)
    (hexploit : ¬ u < a.epsilon)
    (hq : s.q_values ≠ [])
    (hstep : a.stepOnce u c v s = some s') :
    (a.selectArm u c s.q_values = npArgmax s.q_values ∧
     npArgmax s.q_values < s.q_values.length ∧
     (∀ m, m < s.q_values.length →
        s.q_values.getD m 0 ≤ s.q_values.getD (npArgmax s.q_values) 0) ∧
     (∀ m, m < npArgmax s.q_values →
        s.q_values.getD m 0 < s.q_values.getD (npArgmax s.q_values) 0)) ∧
    (∀ k, s.q_values = List.replicate k 0 →
       a.selectArm u c s.q_values = 0) ∧
    s'.q_values.getD (npArgmax s.q_values) 0 =
      s'.rewards_obtained_per_arm.getD (npArgmax s.q_values) 0 /
        ((s'.count_of_arms_pulled.getD (npArgmax s.q_values) 0 : ℚ)) := by
  have hsel : a.selectArm u c s.q_values = npArgmax s.q_values := by
    unfold EpsilonGreedyAgent.selectArm
    rw [if_neg hexploit]
  obtain ⟨hlt, hmax, hfirst⟩ := npArgmax_first_max s.q_values hq
  refine ⟨⟨hsel, hlt, hmax, hfirst⟩, ?_, ?_⟩
  · intro k hk
    rw [hsel, hk, npArgmax_replicate_zero]
  · unfold EpsilonGreedyAgent.stepOnce at hstep
    dsimp only at hstep
    rw [hsel] at hstep
    cases hp : a.environment.pull ((npArgmax s.q_values : Nat) : Int) v with
    | none => rw [hp] at hstep; exact Option.noConfusion hstep
    | some reward =>
      simp only [hp] at hstep
      injection hstep with hst
      subst hst
      exact getD_set_same s.q_values (npArgmax s.q_values) _ 0 hlt

/-- Claim C5 witness: one exploit step of an epsilon-zero agent on a
deterministic one-arm environment with payout 10. -/
theorem epsilonGreedy_exploit_step_witness :
    EpsilonGreedyAgent.selectArm
      ⟨SlotMachineEnvironment.mk [1] [10], 1, 0⟩ 0 0 [(0 : ℚ)] =
      npArgmax [(0 : ℚ)] ∧
    (∀ k, [(0 : ℚ)] = List.replicate k 0 →
       EpsilonGreedyAgent.selectArm
         ⟨SlotMachineEnvironment.mk [1] [10], 1, 0⟩ 0 0 [(0 : ℚ)] = 0) ∧
    (EGState.mk [10] [10] [1] [10] [10]).q_values.getD (npArgmax [(0 : ℚ)]) 0 =
      (EGState.mk [10] [10] [1] [10] [10]).rewards_obtained_per_arm.getD
          (npArgmax [(0 : ℚ)]) 0 /
        (((EGState.mk [10] [10] [1] [10] [10]).count_of_arms_pulled.getD
            (npArgmax [(0 : ℚ)]) 0 : ℚ)) := by
  have hstep : EpsilonGreedyAgent.stepOnce
      ⟨SlotMachineEnvironment.mk [1] [10], 1, 0⟩ 0 0 0
      (EGState.mk [0] [0] [0] [] []) =
      some (EGState.mk [10] [10] [1] [10] [10]) := by
    norm_num [EpsilonGreedyAgent.stepOnce, EpsilonGreedyAgent.selectArm,
      npArgmax, argmaxScan, SlotMachineEnvironment.pull, pyGet, listIncr]
  have h := epsilonGreedy_exploit_step
    ⟨SlotMachineEnvironment.mk [1] [10], 1, 0⟩ 0 0 0
    (EGState.mk [0] [0] [0] [] []) (EGState.mk [10] [10] [1] [10] [10])
    (by norm_num) (by simp) hstep
  exact ⟨h.1.1, h.2.1, h.2.2⟩

/-- Claim C7: for an EpsilonGreedyAgent with epsilon = 0 the explore branch
is never taken (a uniform sample in `[0,1)` is never strictly below 0), so
every arm selection is the deterministic `np.argmax` of the current
q-values; two runs with the same pull samples but arbitrary different
explore samples and explore choices produce identical run states at every
step. -/
theorem epsilonGreedy_zero_epsilon_deterministic (a : EpsilonGreedyAgent)
    (us us' : Nat → ℚ) (cs cs' : Nat → Nat) (vs : Nat → ℚ)
    (heps : a.epsilon = 0)
    (hu : ∀ i, 0 ≤ us i) (hu' : ∀ i, 0 ≤ us' i) :
    (∀ u c q, 0 ≤ u → a.selectArm u c q = npArgmax q) ∧
    a.runState us cs vs = a.runState us' cs' vs := by
  have hsel : ∀ u c q, 0 ≤ u → a.selectArm u c q = npArgmax q := by
    intro u c q h0
    unfold EpsilonGreedyAgent.selectArm
    rw [if_neg (by rw [heps]; exact not_lt.mpr h0)]
  refine ⟨hsel, ?_⟩
  have hcong : ∀ i st, a.stepOnce (us i) (cs i) (vs i) st =
      a.stepOnce (us' i) (cs' i) (vs i) st := by
    intro i st
    unfold EpsilonGreedyAgent.stepOnce
    rw [hsel (us i) (cs i) st.q_values (hu i),
        hsel (us' i) (cs' i) st.q_values (hu' i)]
  unfold EpsilonGreedyAgent.runState
  exact runSteps_congr _ _ hcong a.steps a.initState

/-- Claim C7 witness: two two-step runs of an epsilon-zero agent with
different explore samples and explore choices coincide. -/
theorem epsilonGreedy_zero_epsilon_deterministic_witness :
    (∀ u c q, 0 ≤ u →
       EpsilonGreedyAgent.selectArm
         ⟨SlotMachineEnvironment.mk [1] [10], 2, 0⟩ u c q = npArgmax q) ∧
    EpsilonGreedyAgent.runState ⟨SlotMachineEnvironment.mk [1] [10], 2, 0⟩
      (fun _ => 0) (fun _ => 0) (fun _ => 0) =
    EpsilonGreedyAgent.runState ⟨SlotMachineEnvironment.mk [1] [10], 2, 0⟩
      (fun _ => 1/2) (fun _ => 7) (fun _ => 0) :=
  epsilonGreedy_zero_epsilon_deterministic
    ⟨SlotMachineEnvironment.mk [1] [10], 2, 0⟩
    (fun _ => 0) (fun _ => 1/2) (fun _ => 0) (fun _ => 7) (fun _ => 0)
    rfl (fun _ => le_refl 0) (fun _ => by norm_num)

/-- Claim C4: at every ThompsonSamplingAgent step one Beta sample is drawn
per arm with shape parameters `(successes[arm] + 1, failures[arm] + 1)`;
the arm attaining the maximum sampled value is selected, ties broken in
favor of the first maximum by the strict `>` left-to-right scan (Beta
samples are nonnegative, stated as a hypothesis on the sample stream); and
after pulling, the selected arm's success counter is incremented iff the
raw reward is strictly greater than 90, otherwise its failure counter is
incremented. -/
theorem thompson_step (t : ThompsonSamplingAgent) (bsi : Nat → ℚ → ℚ → ℚ)
    (v : ℚ) (s s' : TSState)
    (hk : 0 < t.environment.k_arms)
    (hb : ∀ x ∈ t.betaDraws bsi s, 0 ≤ x)
    (hstep : t.stepOnce bsi v s = some s') :
    ((t.betaDraws bsi s).length = t.environment.k_arms ∧
     (∀ j, j < t.environment.k_arms → (t.betaDraws bsi s).getD j 0 =
        bsi j ((s.rewards_obtained.getD j 0 : ℚ) + 1)
              ((s.failures.getD j 0 : ℚ) + 1))) ∧
    (t.selectArm bsi s < t.environment.k_arms ∧
     (∀ m, m < t.environment.k_arms →
        (t.betaDraws bsi s).getD m 0 ≤
          (t.betaDraws bsi s).getD (t.selectArm bsi s) 0) ∧
     (∀ m, m < t.selectArm bsi s →
        (t.betaDraws bsi s).getD m 0 <
          (t.betaDraws bsi s).getD (t.selectArm bsi s) 0)) ∧
    (∃ reward,
       t.environment.pull ((t.selectArm bsi s : Nat) : Int) v = some reward ∧
       s'.count_of_arms_pulled =
         listIncr s.count_of_arms_pulled (t.selectArm bsi s) ∧
       ((reward > 90 ∧
          s'.rewards_obtained =
            listIncr s.rewards_obtained (t.selectArm bsi s) ∧
          s'.failures = s.failures) ∨
        (¬ reward > 90 ∧
          s'.failures = listIncr s.failures (t.selectArm bsi s) ∧
          s'.rewards_obtained = s.rewards_obtained))) := by
  have hlen : (t.betaDraws bsi s).length = t.environment.k_arms := by
    simp [ThompsonSamplingAgent.betaDraws]
  have hne : t.betaDraws bsi s ≠ [] := by
    intro hnil
    rw [hnil] at hlen
    simp at hlen
    omega
  have hscan := argmaxScan_zero_first_max (t.betaDraws bsi s) hne hb
  have hselEq : t.selectArm bsi s = (argmaxScan (t.betaDraws bsi s) 0 (0, 0)).1 := rfl
  refine ⟨⟨hlen, ?_⟩, ⟨TS_selectArm_lt t bsi s hk, ?_, ?_⟩, ?_⟩
  · intro j hj
    exact getD_map_range t.environment.k_arms j hj _
  · intro m hm
    rw [hselEq]
    exact hscan.1 m (by rw [hlen]; exact hm)
  · intro m hm
    rw [hselEq]
    exact hscan.2 m (by rw [hselEq] at hm; exact hm)
  · unfold ThompsonSamplingAgent.stepOnce at hstep
    dsimp only at hstep
    cases hp : t.environment.pull ((t.selectArm bsi s : Nat) : Int) v with
    | none => rw [hp] at hstep; exact Option.noConfusion hstep
    | some reward =>
      simp only [hp] at hstep
      injection hstep with hst
      subst hst
      refine ⟨reward, rfl, rfl, ?_⟩
      by_cases h90 : reward > 90
      · exact Or.inl ⟨h90, by simp [h90], by simp [h90]⟩
      · exact Or.inr ⟨h90, by simp [h90], by simp [h90]⟩

/-- Claim C4 witness: one Thompson step on a deterministic one-arm
environment with payout 100. -/
theorem thompson_step_witness :
    ThompsonSamplingAgent.selectArm
      ⟨SlotMachineEnvironment.mk [1] [100], 1⟩ (fun _ _ _ => 1)
      (TSState.mk [0] [0] [0] [] []) <
      (ThompsonSamplingAgent.mk (SlotMachineEnvironment.mk [1] [100])
        1).environment.k_arms ∧
    (∀ m, m < (ThompsonSamplingAgent.mk (SlotMachineEnvironment.mk [1] [100])
        1).environment.k_arms →
       (ThompsonSamplingAgent.betaDraws
         ⟨SlotMachineEnvironment.mk [1] [100], 1⟩ (fun _ _ _ => 1)
         (TSState.mk [0] [0] [0] [] [])).getD m 0 ≤
       (ThompsonSamplingAgent.betaDraws
         ⟨SlotMachineEnvironment.mk [1] [100], 1⟩ (fun _ _ _ => 1)
         (TSState.mk [0] [0] [0] [] [])).getD
         (ThompsonSamplingAgent.selectArm
           ⟨SlotMachineEnvironment.mk [1] [100], 1⟩ (fun _ _ _ => 1)
           (TSState.mk [0] [0] [0] [] [])) 0) := by
  have hstep : ThompsonSamplingAgent.stepOnce
      ⟨SlotMachineEnvironment.mk [1] [100], 1⟩ (fun _ _ _ => 1) 0
      (TSState.mk [0] [0] [0] [] []) =
      some (TSState.mk [1] [1] [0] [100] [100]) := by
    norm_num [ThompsonSamplingAgent.stepOnce,
      ThompsonSamplingAgent.selectArm, ThompsonSamplingAgent.betaDraws,
      argmaxScan, SlotMachineEnvironment.pull, pyGet, listIncr,
      SlotMachineEnvironment.k_arms]
  have h := thompson_step ⟨SlotMachineEnvironment.mk [1] [100], 1⟩
    (fun _ _ _ => 1) 0 (TSState.mk [0] [0] [0] [] [])
    (TSState.mk [1] [1] [0] [100] [100])
    (by norm_num [SlotMachineEnvironment.k_arms])
    (by norm_num [ThompsonSamplingAgent.betaDraws,
      SlotMachineEnvironment.k_arms]) hstep
  exact ⟨h.2.1.1, h.2.1.2.1⟩

theorem runSteps_measure2 {σ : Type} (f : Nat → σ → Option σ) (P : σ → Prop)
    (g1 g2 : σ → Nat)
    (hstep : ∀ i s s', P s → f i s = some s' →
       P s' ∧ g1 s' = g1 s + 1 ∧ g2 s' = g2 s + 1) :
    ∀ (n : Nat) (s s' : σ), P s → runSteps f n s = some s' →
      P s' ∧ g1 s' = g1 s + n ∧ g2 s' = g2 s + n := by
  intro n
  induction n with
  | zero =>
    intro s s' hP h
    cases Option.some.inj h
    exact ⟨hP, rfl, rfl⟩
  | succ n ih =>
    intro s s' hP h
    unfold runSteps at h
    cases hm : runSteps f n s with
    | none => rw [hm] at h; exact Option.noConfusion h
    | some m =>
      rw [hm] at h
      simp only [Option.some_bind] at h
      obtain ⟨hPm, hg1, hg2⟩ := ih s m hP hm
      obtain ⟨hPs, hg1s, hg2s⟩ := hstep n m s' hPm h
      exact ⟨hPs, by omega, by omega⟩

/-- Claim C8 counterexample: on a concrete two-step ThompsonSamplingAgent
run, the second component of the returned triple is the per-arm
success-count vector `[2]` (length `k_arms = 1`), while the raw per-step
reward sequence of that same run is `[100, 100]` (length `steps = 2`) and
is not among the returned components — so the run operation does not return
the raw per-step reward/outcome sequence. -/
theorem agent_run_return_counterexample :
    ThompsonSamplingAgent.step ⟨SlotMachineEnvironment.mk [1] [100], 2⟩
      (fun _ _ _ _ => 1) (fun _ => 0) = some ([2], [2], [100, 100]) ∧
    ThompsonSamplingAgent.runState ⟨SlotMachineEnvironment.mk [1] [100], 2⟩
      (fun _ _ _ _ => 1) (fun _ => 0) =
      some (TSState.mk [2] [2] [0] [100, 100] [100, 100]) ∧
    (TSState.mk [2] [2] [0] [100, 100] [100, 100]).total_rewards.length = 2 ∧
    ([2] : List Nat).length ≠ 2 := by
  have hrun : ThompsonSamplingAgent.runState
      ⟨SlotMachineEnvironment.mk [1] [100], 2⟩
      (fun _ _ _ _ => 1) (fun _ => 0) =
      some (TSState.mk [2] [2] [0] [100, 100] [100, 100]) := by
    norm_num [ThompsonSamplingAgent.runState, runSteps,
      ThompsonSamplingAgent.stepOnce, ThompsonSamplingAgent.initState,
      ThompsonSamplingAgent.selectArm, ThompsonSamplingAgent.betaDraws,
      argmaxScan, SlotMachineEnvironment.pull, pyGet, listIncr,
      SlotMachineEnvironment.k_arms]
  refine ⟨?_, hrun, by norm_num, by norm_num⟩
  unfold ThompsonSamplingAgent.step
  rw [hrun]
  rfl

/-- Claim C8 (amended): each agent's run operation returns a triple whose
first component is the per-arm pull counts and whose third is the
cumulative-average reward sequence (one entry per step); the second
component is the raw per-step reward sequence (one entry per step) for
RandomAgent and EpsilonGreedyAgent, but for ThompsonSamplingAgent it is the
per-arm success-count vector (length `k_arms`), and the raw per-step reward
sequence (`total_rewards`, one entry per step) is not returned. -/
theorem agent_run_return_shape (a : RandomAgent) (e : EpsilonGreedyAgent)
    (t : ThompsonSamplingAgent)
    (g : List ℚ) (cs : Nat → Nat) (us : Nat → ℚ)
    (es : Nat → ℚ) (ecs : Nat → Nat) (evs : Nat → ℚ)
    (bs : Nat → Nat → ℚ → ℚ → ℚ) (ws : Nat → ℚ)
    (sa : RAState) (se : EGState) (st : TSState)
    (hka : 0 < a.environment.k_arms)
    (hca : ∀ i, cs i < a.environment.k_arms)
    (hke : 0 < e.environment.k_arms)
    (hce : ∀ i, ecs i < e.environment.k_arms)
    (hkt : 0 < t.environment.k_arms)
    (hra : a.runState g cs us = some sa)
    (hre : e.runState es ecs evs = some se)
    (hrt : t.runState bs ws = some st) :
    (a.step g cs us = some (sa.count_of_arms_pulled, sa.rewards_obtained,
       sa.cumulative_rewards) ∧
     sa.rewards_obtained.length = a.steps ∧
     sa.cumulative_rewards.length = a.steps) ∧
    (e.step es ecs evs = some (se.count_of_arms_pulled, se.rewards,
       se.cumulative_rewards) ∧
     se.rewards.length = e.steps ∧
     se.cumulative_rewards.length = e.steps) ∧
    (t.step bs ws = some (st.count_of_arms_pulled, st.rewards_obtained,
       st.cumulative_rewards) ∧
     st.rewards_obtained.length = t.environment.k_arms ∧
     st.total_rewards.length = t.steps ∧
     st.cumulative_rewards.length = t.steps) := by
  have hA := runSteps_measure2
    (fun i st => a.stepOnce g (cs i) (us i) st)
    (fun st => st.count_of_arms_pulled.length = a.environment.k_arms)
    (fun st => st.rewards_obtained.length)
    (fun st => st.cumulative_rewards.length)
    ?_ a.steps a.initState sa ?_ hra
  · have hE := runSteps_measure2
      (fun i st => e.stepOnce (es i) (ecs i) (evs i) st)
      (fun st => st.q_values.length = e.environment.k_arms ∧
         st.count_of_arms_pulled.length = e.environment.k_arms)
      (fun st => st.rewards.length)
      (fun st => st.cumulative_rewards.length)
      ?_ e.steps e.initState se ?_ hre
    · have hT := runSteps_measure2
        (fun i st => t.stepOnce (bs i) (ws i) st)
        (fun st => st.count_of_arms_pulled.length = t.environment.k_arms ∧
           st.rewards_obtained.length = t.environment.k_arms ∧
           st.failures.length = t.environment.k_arms ∧
           (∀ j, st.rewards_obtained.getD j 0 + st.failures.getD j 0 =
              st.count_of_arms_pulled.getD j 0))
        (fun st => st.total_rewards.length)
        (fun st => st.cumulative_rewards.length)
        ?_ t.steps t.initState st ?_ hrt
      · refine ⟨⟨?_, ?_, ?_⟩, ⟨?_, ?_, ?_⟩, ⟨?_, hT.1.2.1, ?_, ?_⟩⟩
        · unfold RandomAgent.step
          rw [hra]
          rfl
        · have h := hA.2.1
          simp [RandomAgent.initState] at h
          omega
        · have h := hA.2.2
          simp [RandomAgent.initState] at h
          omega
        · unfold EpsilonGreedyAgent.step
          rw [hre]
          rfl
        · have h := hE.2.1
          simp [EpsilonGreedyAgent.initState] at h
          omega
        · have h := hE.2.2
          simp [EpsilonGreedyAgent.initState] at h
          omega
        · unfold ThompsonSamplingAgent.step
          rw [hrt]
          rfl
        · have h := hT.2.1
          simp [ThompsonSamplingAgent.initState] at h
          omega
        · have h := hT.2.2
          simp [ThompsonSamplingAgent.initState] at h
          omega
      · intro i s1 s2 hP hstep
        obtain ⟨hcl, hsl, hfl, hinv⟩ := hP
        obtain ⟨h1, h2, h3, h4, _, h6, h7⟩ :=
          TS_step_preserves t (bs i) (ws i) s1 s2 hkt hcl hsl hfl hinv hstep
        exact ⟨⟨h1, h2, h3, h4⟩, h6, h7⟩
      · refine ⟨by simp [ThompsonSamplingAgent.initState], by
          simp [ThompsonSamplingAgent.initState], by
          simp [ThompsonSamplingAgent.initState], ?_⟩
        intro j
        simp [ThompsonSamplingAgent.initState]
    · intro i s1 s2 hP hstep
      obtain ⟨hql, hcl⟩ := hP
      obtain ⟨h1, h2, _, h4, h5⟩ :=
        EG_step_preserves e (es i) (ecs i) (evs i) s1 s2 hke (hce i) hql hcl
          hstep
      exact ⟨⟨h1, h2⟩, h4, h5⟩
    · exact ⟨by simp [EpsilonGreedyAgent.initState], by
        simp [EpsilonGreedyAgent.initState]⟩
  · intro i s1 s2 hP hstep
    obtain ⟨h1, _, h3, h4⟩ :=
      RA_step_preserves a g (cs i) (us i) s1 s2 (hca i) hP hstep
    exact ⟨h1, h3, h4⟩
  · simp [RandomAgent.initState]

/-- Claim C8 witness: one-step runs of all three agents on deterministic
one-arm environments. -/
theorem agent_run_return_shape_witness :
    (RandomAgent.step ⟨SlotMachineEnvironment.mk [1] [10], 1⟩ [10]
       (fun _ => 0) (fun _ => 0) = some ([1], [10], [10])) ∧
    (EpsilonGreedyAgent.step ⟨SlotMachineEnvironment.mk [1] [10], 1, 0⟩
       (fun _ => 0) (fun _ => 0) (fun _ => 0) = some ([1], [10], [10])) ∧
    (ThompsonSamplingAgent.step ⟨SlotMachineEnvironment.mk [1] [100], 1⟩
       (fun _ _ _ _ => 1) (fun _ => 0) = some ([1], [1], [100])) ∧
    ([1] : List Nat).length =
      (ThompsonSamplingAgent.mk (SlotMachineEnvironment.mk [1] [100])
        1).environment.k_arms ∧
    (TSState.mk [1] [1] [0] [100] [100]).total_rewards.length = 1 := by
  have hra : RandomAgent.runState ⟨SlotMachineEnvironment.mk [1] [10], 1⟩
      [10] (fun _ => 0) (fun _ => 0) = some (RAState.mk [1] [10] [10]) := by
    norm_num [RandomAgent.runState, runSteps, RandomAgent.stepOnce,
      RandomAgent.initState, SlotMachineEnvironment.pull, pyGet, listIncr,
      SlotMachineEnvironment.k_arms]
  have hre : EpsilonGreedyAgent.runState
      ⟨SlotMachineEnvironment.mk [1] [10], 1, 0⟩
      (fun _ => 0) (fun _ => 0) (fun _ => 0) =
      some (EGState.mk [10] [10] [1] [10] [10]) := by
    norm_num [EpsilonGreedyAgent.runState, runSteps,
      EpsilonGreedyAgent.stepOnce, EpsilonGreedyAgent.initState,
      EpsilonGreedyAgent.selectArm, npArgmax, argmaxScan,
      SlotMachineEnvironment.pull, pyGet, listIncr,
      SlotMachineEnvironment.k_arms]
  have hrt : ThompsonSamplingAgent.runState
      ⟨SlotMachineEnvironment.mk [1] [100], 1⟩
      (fun _ _ _ _ => 1) (fun _ => 0) =
      some (TSState.mk [1] [1] [0] [100] [100]) := by
    norm_num [ThompsonSamplingAgent.runState, runSteps,
      ThompsonSamplingAgent.stepOnce, ThompsonSamplingAgent.initState,
      ThompsonSamplingAgent.selectArm, ThompsonSamplingAgent.betaDraws,
      argmaxScan, SlotMachineEnvironment.pull, pyGet, listIncr,
      SlotMachineEnvironment.k_arms]
  have h := agent_run_return_shape
    ⟨SlotMachineEnvironment.mk [1] [10], 1⟩
    ⟨SlotMachineEnvironment.mk [1] [10], 1, 0⟩
    ⟨SlotMachineEnvironment.mk [1] [100], 1⟩
    [10] (fun _ => 0) (fun _ => 0)
    (fun _ => 0) (fun _ => 0) (fun _ => 0)
    (fun _ _ _ _ => 1) (fun _ => 0)
    (RAState.mk [1] [10] [10]) (EGState.mk [10] [10] [1] [10] [10])
    (TSState.mk [1] [1] [0] [100] [100])
    (by norm_num [SlotMachineEnvironment.k_arms])
    (fun _ => by norm_num [SlotMachineEnvironment.k_arms])
    (by norm_num [SlotMachineEnvironment.k_arms])
    (fun _ => by norm_num [SlotMachineEnvironment.k_arms])
    (by norm_num [SlotMachineEnvironment.k_arms])
    hra hre hrt
  exact ⟨h.1.1, h.2.1.1, h.2.2.1, (h.2.2.2.1).symm, h.2.2.2.2.1⟩

end KArmedBandits
